import Mathlib

/-!
Shallow embedding of the `state_prep` time-evolution engine
(`src/state_prep/simulator.py` and `src/state_prep/microwaves.py`).

Conventions used throughout:
* `n` is the basis size (`len(hamiltonian.QN)`), matrices are
  `Matrix (Fin n) (Fin n) ℂ`, eigenvalue arrays are `Fin n → ℝ`
  (LAPACK `zheevd` and `np.linalg.eigh` return real eigenvalue arrays).
* The external eigensolvers `scipy.linalg.lapack.zheevd` and
  `np.linalg.eigh` are foreign library routines; they are embedded as
  explicit function parameters `z : Zheevd n` and `e : Eigh n`.
* Python state vectors are rows of `self.psis`; here they are a
  `List (Fin n → ℂ)`.
* Exceptions raised by `Simulator.run` are modelled with `Except PyErr`.
-/

open Matrix Complex

abbrev Vec (n : ℕ) := Fin n → ℂ

abbrev Mat (n : ℕ) := Matrix (Fin n) (Fin n) ℂ

/-- Eigenvalue/eigenvector output type of `scipy.linalg.lapack.zheevd`:
`(w, v, info)` with real eigenvalues `w`, eigenvector matrix `v` and an
integer status `info`. -/
abbrev Zheevd (n : ℕ) := Mat n → (Fin n → ℝ) × Mat n × ℤ

/-- Output type of `np.linalg.eigh`: `(w, v)` with real eigenvalues `w`
(ascending per its documentation) and eigenvector matrix `v`. -/
abbrev Eigh (n : ℕ) := Mat n → (Fin n → ℝ) × Mat n

/-- Python exceptions that the embedded `Simulator.run` can raise. -/
inductive PyErr : Type where
  | attributeError : String → String → PyErr
  | typeError : String → PyErr
  | assertionError : String → PyErr
  | indexError : String → PyErr
  deriving DecidableEq, Repr

/-- The per-step diagonalization with single robust fallback, as written at
`simulator.py:378-380` and `442-444`/`455-458`:
```
D, V, info = zheevd(H)
if info != 0:
    D, V = np.linalg.eigh(H)
```
-/
def solveStep {n : ℕ} (z : Zheevd n) (e : Eigh n) (H : Mat n) :
    (Fin n → ℝ) × Mat n :=
  let r := z H
  if r.2.2 ≠ 0 then e H else (r.1, r.2.1)

/-- Single-operator step propagator, `simulator.py:387`:
`U_dt = V @ np.diag(np.exp(-1j * D * dt)) @ V.conj().T`. -/
noncomputable def propagatorSingle {n : ℕ} (DV : (Fin n → ℝ) × Mat n) (dt : ℝ) : Mat n :=
  DV.2 * Matrix.diagonal (fun j => Complex.exp (-Complex.I * DV.1 j * dt)) * DV.2ᴴ

/-- `Simulator.calculate_probabilities` (`simulator.py:518-530`):
`overlaps = np.einsum("ij,kj->ki", V.conj().T, psis)` gives, for state
vector row `ψ`, the vector `i ↦ Σ_j (Vᴴ)[i,j]·ψ[j] = (Vᴴ *ᵥ ψ) i`; the
result is `np.abs(overlaps) ** 2`, i.e. `Complex.normSq` entrywise. -/
noncomputable def calculate_probabilities {n : ℕ} (psis : List (Vec n)) (V : Mat n) :
    List (Fin n → ℝ) :=
  psis.map fun ψ => fun i => Complex.normSq ((Vᴴ).mulVec ψ i)

/-- First index attaining the maximum of `f` on a nonempty finite set;
`np.argmax` semantics (smallest maximizing index). -/
noncomputable def argmaxFirst {n : ℕ} (f : Fin n → ℝ) (s : Finset (Fin n))
    (h : s.Nonempty) : Fin n :=
  letI := Classical.decPred fun j => s.sup' h f ≤ f j
  (s.filter fun j => s.sup' h f ≤ f j).min'
    (by
      obtain ⟨b, hb, hSup⟩ := Finset.exists_mem_eq_sup' h f
      exact ⟨b, Finset.mem_filter.2 ⟨hb, le_of_eq hSup⟩⟩)

/-- Modelled from the spec: `utils.find_max_overlap_idx` is imported by the
simulator but `src/state_prep/utils.py` is not among the provided sources.
Spec §4.6: "select the eigenvector column maximizing overlap magnitude with
the declared state's vector representation (argmax of `|⟨declared|eigencolumn⟩|`,
a single best match)". -/
noncomputable def find_max_overlap_idx {n : ℕ} [NeZero n] (v : Vec n) (V : Mat n) :
    Fin n :=
  argmaxFirst (fun j => Complex.abs (dotProduct (star v) fun i => V i j))
    Finset.univ Finset.univ_nonempty

/-- Greedy column assignment used by the eigenbasis correspondence tracker:
for each reference index `k` (taken in order from `ks`), pick the unused
column index maximizing the overlap row `O k`. -/
noncomputable def greedyAssignAux {n : ℕ} (O : Fin n → Fin n → ℝ) :
    List (Fin n) → Finset (Fin n) → List (Fin n)
  | [], _ => []
  | k :: ks, used =>
    if h : (Finset.univ \ used).Nonempty then
      let j := argmaxFirst (O k) (Finset.univ \ used) h
      j :: greedyAssignAux O ks (insert j used)
    else []

/-- The full greedy assignment list: reference columns `0..n-1` in order,
starting with no index used. -/
noncomputable def greedyAssign {n : ℕ} (O : Fin n → Fin n → ℝ) : List (Fin n) :=
  greedyAssignAux O (List.finRange n) ∅

/-- Position `k` of the greedy assignment, as a function. -/
noncomputable def reorderAssign {n : ℕ} (O : Fin n → Fin n → ℝ) (k : Fin n) :
    Fin n :=
  (greedyAssign O).getD k.val k

/-- The overlap magnitude matrix `O = |V_ref^† V|²` of spec §4.2. -/
noncomputable def overlapO {n : ℕ} (V Vref : Mat n) : Fin n → Fin n → ℝ :=
  fun k j => Complex.normSq ((Vrefᴴ * V) k j)

/-- Modelled from the spec: `utils.reorder_evecs` is imported by the simulator
but `src/state_prep/utils.py` is not among the provided sources. Spec §4.2:
"compute the full N×N overlap magnitude matrix `O = |V_ref^† V|²`. For each
reference column k in order, assign it the new-basis column j maximizing
`O[k, j]` among indices not yet assigned; mark j as used"; the output is the
reordered `(D_perm, V_perm)` with `V_perm[:,k] = V[:,j_k]`. -/
noncomputable def reorder_evecs {n : ℕ} (V : Mat n) (D : Fin n → ℝ)
    (Vref : Mat n) : (Fin n → ℝ) × Mat n :=
  (fun k => D (reorderAssign (overlapO V Vref) k),
    Matrix.of fun i k => V i (reorderAssign (overlapO V Vref) k))

/-- Per-step record stored by `Simulator._time_evolve` (lines 392-396):
the propagated state vectors, the rolling-reference-reordered energies,
the fixed-reference (diabatic) energies, and the probability matrix. -/
structure StepRec (n : ℕ) where
  psis : List (Vec n)
  Es : Fin n → ℝ
  EsDiab : Fin n → ℝ
  probs : List (Fin n → ℝ)

/-- Per-step record stored by `Simulator._time_evolve_mu` (lines 481-484);
no diabatic energies are recorded in dual-operator mode. -/
structure StepRecMu (n : ℕ) where
  psis : List (Vec n)
  Es : Fin n → ℝ
  probs : List (Fin n → ℝ)

/-- The loop body of `Simulator._time_evolve` (`simulator.py:370-399`),
recursing over consecutive pairs of the time grid. Per step:
```
dt = t_array[i+1] - t_array[i]
H_slow_i = H_slow(t)
D, V, info = zheevd(H_slow_i); if info != 0: D, V = np.linalg.eigh(H_slow_i)
Es, evecs = reorder_evecs(V, D, V_ref)
Es_diabatic, _ = reorder_evecs(V, D, V_ref_ini)
U_dt = V @ np.diag(np.exp(-1j * D * dt)) @ V.conj().T
self.psis = np.einsum("ij,kj->ki", U_dt, self.psis)   -- row k becomes U_dt @ psis[k]
... store ...; V_ref = evecs
```
Returns the per-step records and the final rolling reference `V_ref`. -/
noncomputable def evolveLoop {n : ℕ} (solve : Mat n → (Fin n → ℝ) × Mat n)
    (Hslow : ℝ → Mat n) (VrefIni : Mat n) :
    List ℝ → List (Vec n) → Mat n → List (StepRec n) × Mat n
  | [], _, Vref => ([], Vref)
  | [_], _, Vref => ([], Vref)
  | t :: t' :: rest, psis, Vref =>
    let dt := t' - t
    let DV := solve (Hslow t)
    let EsEvecs := reorder_evecs DV.2 DV.1 Vref
    let EsDiab := (reorder_evecs DV.2 DV.1 VrefIni).1
    let U := propagatorSingle DV dt
    let psis' := psis.map fun ψ => U.mulVec ψ
    let probs := calculate_probabilities psis' EsEvecs.2
    let rest' := evolveLoop solve Hslow VrefIni (t' :: rest) psis' EsEvecs.2
    (⟨psis', EsEvecs.1, EsDiab, probs⟩ :: rest'.1, rest'.2)

/-- Dual-operator step propagator (`simulator.py:464-476`):
```
A = V @ V_rot
phase = np.exp(-1j * D_rot * dt)
A_phase = A * phase[np.newaxis, :]    # column j of A scaled by phase[j]
U_dt = A_phase @ A.conj().T
```
Stated over the combined matrix `A = V @ V_rot`. -/
noncomputable def propagatorDual {n : ℕ} (A : Mat n) (Drot : Fin n → ℝ)
    (dt : ℝ) : Mat n :=
  (Matrix.of fun i j => A i j * Complex.exp (-Complex.I * Drot j * dt)) * Aᴴ

/-- The loop body of `Simulator._time_evolve_mu` (`simulator.py:432-487`).
Per step:
```
dt = t_array[i+1] - t_array[i]
H_slow_i = H_slow_t(t); H_mu_i = H_mu_t(t)
D, V, info = zheevd(H_slow_i); if info != 0: D, V = np.linalg.eigh(H_slow_i)
index = np.argsort(D); D = D[index]; V = V[:, index]
H_rot = V.conj().T @ (H_slow_i + H_mu_i) @ V + D_mu
D_rot, V_rot, info_rot = zheevd(H_rot); if info_rot != 0: D_rot, V_rot = np.linalg.eigh(H_rot)
Es, evecs = reorder_evecs(V, D, V_ref)
A = V @ V_rot
phase = np.exp(-1j * D_rot * dt)
A_phase = A * phase[np.newaxis, :]            -- column j of A scaled by phase[j]
U_dt = A_phase @ A.conj().T
self.psis = self.psis.dot(U_dt.T)             -- row k becomes psis[k] ᵥ* U_dtᵀ
... store ...; V_ref = evecs
```
`np.argsort` is modelled by the (stable) sorting permutation `Tuple.sort`. -/
noncomputable def evolveMuLoop {n : ℕ} (solve : Mat n → (Fin n → ℝ) × Mat n)
    (Hslow Hmu : ℝ → Mat n) (Dmu : Mat n) :
    List ℝ → List (Vec n) → Mat n → List (StepRecMu n) × Mat n
  | [], _, Vref => ([], Vref)
  | [_], _, Vref => ([], Vref)
  | t :: t' :: rest, psis, Vref =>
    let dt := t' - t
    let Hs := Hslow t
    let Hm := Hmu t
    let DV := solve Hs
    let idx := Tuple.sort DV.1
    let D : Fin n → ℝ := DV.1 ∘ idx
    let V : Mat n := DV.2.submatrix id idx
    let Hrot := Vᴴ * (Hs + Hm) * V + Dmu
    let DVrot := solve Hrot
    let EsEvecs := reorder_evecs V D Vref
    let A := V * DVrot.2
    let U := propagatorDual A DVrot.1 dt
    let psis' := psis.map fun ψ => Matrix.vecMul ψ Uᵀ
    let probs := calculate_probabilities psis' EsEvecs.2
    let rest' := evolveMuLoop solve Hslow Hmu Dmu (t' :: rest) psis' EsEvecs.2
    (⟨psis', EsEvecs.1, probs⟩ :: rest'.1, rest'.2)

/-- `Simulator.init_state_vecs` (`simulator.py:331-347`): diagonalize `H_0`
with `np.linalg.eigh` and, for each approximate initial state, take the
eigenvector column of maximal overlap. -/
noncomputable def init_state_vecs {n : ℕ} [NeZero n] (e : Eigh n) (H0 : Mat n)
    (approx : List (Vec n)) : List (Vec n) :=
  let V := (e H0).2
  approx.map fun s => fun i => V i (find_max_overlap_idx s V)

/-- The 5-tuple returned by `Simulator._time_evolve` (`simulator.py:401`)
and `Simulator._time_evolve_mu` (`simulator.py:489`):
`psis_t, energies, probabilities, V_ref_ini, V_ref`. The internally
computed `energies_diabatic` array of `_time_evolve` is NOT part of this
return value. -/
structure TimeEvolveResult (n : ℕ) where
  psis_t : List (List (Vec n))
  energies : List (Fin n → ℝ)
  probabilities : List (List (Fin n → ℝ))
  V_ini : Mat n
  V_fin : Mat n

/-- `Simulator._time_evolve` (`simulator.py:349-401`). Row 0 of each result
container is filled by `_init_results_containers` (lines 491-516) from
`np.linalg.eigh(H_tini)`; the remaining rows come from the step loop.
The source indexes `t_array[0]` and hence raises `IndexError` on an empty
grid; that case is unreachable from `run` (modelled there) and the empty
grid here returns empty series. -/
noncomputable def time_evolve {n : ℕ} [NeZero n] (z : Zheevd n) (e : Eigh n)
    (Hslow : ℝ → Mat n) (approx : List (Vec n)) (ts : List ℝ) :
    TimeEvolveResult n :=
  match ts with
  | [] => ⟨[], [], [], 0, 0⟩
  | t0 :: rest =>
    let Htini := Hslow t0
    let psis0 := init_state_vecs e Htini approx
    -- _init_results_containers: D, V = np.linalg.eigh(H_tini) (line 510)
    let DV0 := e Htini
    let E0 := DV0.1
    let prob0 := calculate_probabilities psis0 DV0.2
    -- E_ref, V_ref = np.linalg.eigh(H_tini) (line 366); same deterministic call
    let Vref := DV0.2
    let loop := evolveLoop (solveStep z e) Hslow Vref (t0 :: rest) psis0 Vref
    ⟨psis0 :: loop.1.map (·.psis), E0 :: loop.1.map (·.Es),
      prob0 :: loop.1.map (·.probs), Vref, loop.2⟩

/-- `Simulator._time_evolve_mu` (`simulator.py:403-489`). Differs from
`time_evolve` at initialization only in sorting the reference eigenbasis:
```
E_ref, V_ref = np.linalg.eigh(H_tini)
index = np.argsort(E_ref); E_ref = E_ref[index]; V_ref = V_ref[:, index]
```
(the result containers at row 0 still use the unsorted `eigh` output,
line 510). -/
noncomputable def time_evolve_mu {n : ℕ} [NeZero n] (z : Zheevd n) (e : Eigh n)
    (Hslow Hmu : ℝ → Mat n) (Dmu : Mat n) (approx : List (Vec n))
    (ts : List ℝ) : TimeEvolveResult n :=
  match ts with
  | [] => ⟨[], [], [], 0, 0⟩
  | t0 :: rest =>
    let Htini := Hslow t0
    let psis0 := init_state_vecs e Htini approx
    let DV0 := e Htini
    let E0 := DV0.1
    let prob0 := calculate_probabilities psis0 DV0.2
    let idx := Tuple.sort DV0.1
    let Vref := DV0.2.submatrix id idx
    let loop := evolveMuLoop (solveStep z e) Hslow Hmu Dmu (t0 :: rest) psis0 Vref
    ⟨psis0 :: loop.1.map (·.psis), E0 :: loop.1.map (·.Es),
      prob0 :: loop.1.map (·.probs), Vref, loop.2⟩

/-- `np.linspace(0, T, N)` (`simulator.py:301`): `N` evenly spaced samples
from `0` to `T` inclusive; sample `i` is `i * (T / (N - 1))`.
(For `N = 1` numpy returns `[0.0]`; here `T / (1 - 1) = 0` in `ℝ`, so the
formula also yields `[0]`.) -/
noncomputable def linspaceList (T : ℝ) (N : ℕ) : List ℝ :=
  (List.range N).map fun i : ℕ => (i : ℝ) * (T / ((N : ℝ) - 1))

/-- `MicrowaveField` (`src/state_prep/microwaves.py:104-167`). The class
defines exactly three methods: `__init__`, `generate_coupling_matrices` and
`generate_D`; in particular it has NO `get_H_t_func` method, although
`Simulator.run` calls one (simulator.py:272). `__init__` sets both `H_list`
and `D` to `None`. Only the fields needed by the claims are modelled;
`spatial_dep` is an opaque external object and is omitted. -/
structure MicrowaveField (n : ℕ) where
  Jg : ℤ
  Je : ℤ
  muW_freq : ℝ
  H_list : Option (List (Mat n)) := none
  D : Option (Matrix (Fin n) (Fin n) ℝ) := none

/-- The diagonal shift matrix constructed in the body of
`MicrowaveField.generate_D` (`microwaves.py:163-167`):
```
D = np.zeros((len(QN), len(QN)))
for i in range(len(QN)):
    if QN[i].J == Je:
        D[i, i] = -omega          # omega = 2 * np.pi * self.muW_freq
```
modelled as a fold over the row indices, starting from the zero matrix.
`QNJ i` is the rotational quantum number `QN[i].J`. -/
noncomputable def generate_D_localD {n : ℕ} (QNJ : Fin n → ℤ) (Je : ℤ)
    (freq : ℝ) : Matrix (Fin n) (Fin n) ℝ :=
  (List.finRange n).foldl
    (fun D i =>
      if QNJ i = Je then
        Matrix.updateRow D i (Function.update (D i) i (-(2 * Real.pi * freq)))
      else D)
    0

/-- `MicrowaveField.generate_D` (`microwaves.py:156-167`), called as a
method: the body computes the local matrix `generate_D_localD` but never
assigns `self.D` and returns `None`, so the object is unchanged. -/
def MicrowaveField.generate_D {n : ℕ} (mf : MicrowaveField n)
    (_QNJ : Fin n → ℤ) : MicrowaveField n :=
  mf

/-- `Simulator` (`simulator.py:223-234`). `T` models `trajectory.get_T()`,
`Hfunc` models `hamiltonian.get_H_t_func()` (the slow-Hamiltonian provider,
an external collaborator per spec §6), `QNJ` gives the `J` of each basis
state of `hamiltonian.QN`, and `initial_states_approx` holds the
fixed-basis vectors of the declared approximate initial states. The local
field functions `E_t`/`B_t` built in `run` (lines 251-254) are dead locals
(never passed on) and are omitted. -/
structure Simulator (n : ℕ) where
  T : ℝ
  QNJ : Fin n → ℤ
  Hfunc : ℝ → Mat n
  initial_states_approx : List (Vec n)
  microwave_fields : Option (List (MicrowaveField n)) := none

/-- `SimulationResult` (`simulator.py:22-52`). Only the numeric fields are
modelled; `trajectory`, `electric_field`, `magnetic_field`,
`initial_states`, `hamiltonian` and `microwave_fields` are opaque external
objects not touched by the claims. `energies_diabatic` is NOT a field of
the Python dataclass: it models the dynamically-looked-up attribute
`self.energies_diabatic` read by `get_state_energy_diabatic`
(line 213); `none` means the attribute was never assigned, so a Python
read raises `AttributeError`. -/
structure SimulationResult (n : ℕ) where
  t_array : List ℝ
  psis : List (List (Vec n))
  energies : List (Fin n → ℝ)
  probabilities : List (List (Fin n → ℝ))
  V_ini : Mat n
  V_fin : Mat n
  energies_diabatic : Option (List (Fin n → ℝ))

/-- `SimulationResult.get_state_energy_diabatic` (`simulator.py:200-213`):
select the column by maximal overlap of the state with `V_ini`, then return
that column of `self.energies_diabatic` at every time sample. Reading the
never-assigned attribute is modelled by mapping over the `Option`; the
result is `none` exactly when Python raises `AttributeError`. -/
noncomputable def SimulationResult.get_state_energy_diabatic {n : ℕ} [NeZero n]
    (r : SimulationResult n) (stateVec : Vec n) : Option (List ℝ) :=
  r.energies_diabatic.map fun E =>
    let idx := find_max_overlap_idx stateVec r.V_ini
    E.map fun row => row idx

/-- `Simulator.run` (`simulator.py:240-329`).

Without microwave fields: build `t_array = np.linspace(0, T, N_steps)`,
run `_time_evolve`, and pack the returned 5-tuple into a
`SimulationResult` (lines 300-329). The `SimulationResult` constructor
is given exactly `psis_t, energies, probabilities, V_ini, V_fin`; no
diabatic series is passed and no later code assigns the attribute, hence
`energies_diabatic := none`. (`N_steps = 0` would make `_time_evolve`
index `t_array[0]` out of bounds.)

With a non-empty list of microwave fields: the first statement of the
loop over `self.microwave_fields` (line 271-275) is
`muw_hams.append(microwave_field.get_H_t_func(...))`, and `MicrowaveField`
has no method or attribute `get_H_t_func`, so the lookup raises
`AttributeError` before `generate_D`, before the overlap consistency
check (lines 286-289), and before any time evolution.

With an empty list (`microwave_fields = []` is not `None`): the loop body
never runs and `run` reaches `_time_evolve_mu` with `D_mu = 0` and the
closure `H_mu_tot_t`; the first evaluation `H_mu_t(t)` inside the step
loop (line 438) computes `muw_hams[0]` on the empty list and raises
`IndexError`; with fewer than two time samples the step loop is empty and
the closure is never called. -/
noncomputable def Simulator.run {n : ℕ} [NeZero n] (z : Zheevd n) (e : Eigh n)
    (sim : Simulator n) (N_steps : ℕ) : Except PyErr (SimulationResult n) :=
  match sim.microwave_fields with
  | none =>
    if N_steps = 0 then Except.error (PyErr.indexError "t_array[0]")
    else
      let ts := linspaceList sim.T N_steps
      let res := time_evolve z e sim.Hfunc sim.initial_states_approx ts
      Except.ok ⟨ts, res.psis_t, res.energies, res.probabilities,
        res.V_ini, res.V_fin, none⟩
  | some [] =>
    if N_steps = 0 then Except.error (PyErr.indexError "t_array[0]")
    else if 2 ≤ N_steps then Except.error (PyErr.indexError "muw_hams[0]")
    else
      let ts := linspaceList sim.T N_steps
      let res := time_evolve_mu z e sim.Hfunc (fun _ => 0) 0
        sim.initial_states_approx ts
      Except.ok ⟨ts, res.psis_t, res.energies, res.probabilities,
        res.V_ini, res.V_fin, none⟩
  | some (_ :: _) =>
    Except.error (PyErr.attributeError "MicrowaveField" "get_H_t_func")

/-! ### Algebraic helper lemmas -/

/-- Sum of squared magnitudes of a complex vector, as a complex number. -/
lemma ofReal_sum_normSq {n : ℕ} (x : Vec n) :
    ((∑ i, Complex.normSq (x i) : ℝ) : ℂ) = dotProduct (star x) x := by
  rw [dotProduct]
  push_cast
  refine Finset.sum_congr rfl fun i _ => ?_
  rw [Pi.star_apply, Complex.star_def, ← Complex.normSq_eq_conj_mul_self]

/-- A step phase factor has unit modulus. -/
lemma star_phase_mul_self (d dt : ℝ) :
    star (Complex.exp (-Complex.I * d * dt)) * Complex.exp (-Complex.I * d * dt) = 1 := by
  have h : star (Complex.exp (-Complex.I * d * dt)) =
      Complex.exp (Complex.I * d * dt) := by
    rw [Complex.star_def, ← Complex.exp_conj]
    congr 1
    simp [Complex.conj_I, Complex.conj_ofReal]
  rw [h, ← Complex.exp_add]
  have h0 : Complex.I * d * dt + -Complex.I * d * dt = 0 := by ring
  rw [h0, Complex.exp_zero]

/-- Sandwich `A · diag(φ) · Aᴴ` with `A` unitary and unit-modulus `φ` is
unitary. -/
lemma sandwich_unitary {n : ℕ} (A : Mat n) (φ : Fin n → ℂ)
    (hA : Aᴴ * A = 1) (hφ : ∀ j, star (φ j) * φ j = 1) :
    (A * Matrix.diagonal φ * Aᴴ)ᴴ * (A * Matrix.diagonal φ * Aᴴ) = 1 := by
  have hA' : A * Aᴴ = 1 := Matrix.mul_eq_one_comm.mp hA
  have hdc : (Matrix.diagonal φ)ᴴ = Matrix.diagonal (fun j => star (φ j)) := by
    rw [Matrix.diagonal_conjTranspose]
    rfl
  have hdd : Matrix.diagonal (fun j => star (φ j)) * Matrix.diagonal φ
      = (1 : Mat n) := by
    rw [Matrix.diagonal_mul_diagonal]
    have : (fun j => star (φ j) * φ j) = fun _ => (1 : ℂ) := funext hφ
    rw [this, Matrix.diagonal_one]
  calc (A * Matrix.diagonal φ * Aᴴ)ᴴ * (A * Matrix.diagonal φ * Aᴴ)
      = A * ((Matrix.diagonal φ)ᴴ * ((Aᴴ * A) * (Matrix.diagonal φ * Aᴴ))) := by
        simp only [Matrix.conjTranspose_mul, Matrix.conjTranspose_conjTranspose,
          Matrix.mul_assoc]
    _ = A * ((Matrix.diagonal (fun j => star (φ j)) * Matrix.diagonal φ) * Aᴴ) := by
        rw [hA, hdc, Matrix.one_mul, Matrix.mul_assoc]
    _ = 1 := by rw [hdd, Matrix.one_mul, hA']

/-- Multiplication by a matrix with `Uᴴ·U = I` preserves the sum of squared
magnitudes. -/
lemma sum_normSq_mulVec {n : ℕ} (U : Mat n) (hU : Uᴴ * U = 1) (ψ : Vec n) :
    ∑ i, Complex.normSq (U.mulVec ψ i) = ∑ i, Complex.normSq (ψ i) := by
  have key : dotProduct (star (U.mulVec ψ)) (U.mulVec ψ) = dotProduct (star ψ) ψ := by
    calc dotProduct (star (U.mulVec ψ)) (U.mulVec ψ)
        = dotProduct (Matrix.vecMul (star ψ) Uᴴ) (U.mulVec ψ) := by
          rw [Matrix.star_mulVec]
      _ = dotProduct (Matrix.vecMul (Matrix.vecMul (star ψ) Uᴴ) U) ψ := by
          rw [Matrix.dotProduct_mulVec]
      _ = dotProduct (Matrix.vecMul (star ψ) (Uᴴ * U)) ψ := by
          rw [Matrix.vecMul_vecMul]
      _ = dotProduct (star ψ) ψ := by rw [hU, Matrix.vecMul_one]
  have := key
  rw [← ofReal_sum_normSq, ← ofReal_sum_normSq] at this
  exact_mod_cast this

/-- Product of two matrices with `Xᴴ·X = I` again satisfies it. -/
lemma mul_unitary {n : ℕ} (A B : Mat n) (hA : Aᴴ * A = 1) (hB : Bᴴ * B = 1) :
    (A * B)ᴴ * (A * B) = 1 := by
  calc (A * B)ᴴ * (A * B) = Bᴴ * ((Aᴴ * A) * B) := by
        simp only [Matrix.conjTranspose_mul, Matrix.mul_assoc]
    _ = 1 := by rw [hA, Matrix.one_mul, hB]

/-- Permuting the columns of a matrix with `Vᴴ·V = I` preserves it. -/
lemma submatrix_perm_unitary {n : ℕ} (V : Mat n) (σ : Equiv.Perm (Fin n))
    (hV : Vᴴ * V = 1) :
    (V.submatrix id σ)ᴴ * (V.submatrix id σ) = 1 := by
  ext a b
  have h1 : ((V.submatrix id σ)ᴴ * V.submatrix id σ) a b = (Vᴴ * V) (σ a) (σ b) := by
    simp [Matrix.mul_apply, Matrix.conjTranspose_apply, Matrix.submatrix_apply]
  rw [h1, hV, Matrix.one_apply, Matrix.one_apply]
  simp [Equiv.apply_eq_iff_eq]

/-- Entrywise form of the sandwich `V · diag(φ) · Vᴴ`. -/
lemma sandwich_apply {n : ℕ} (V : Mat n) (φ : Fin n → ℂ) (i j : Fin n) :
    (V * Matrix.diagonal φ * Vᴴ) i j = ∑ k, V i k * φ k * star (V j k) := by
  rw [Matrix.mul_apply]
  refine Finset.sum_congr rfl fun k _ => ?_
  rw [Matrix.mul_diagonal, Matrix.conjTranspose_apply]

/-- Column scaling by a vector of phases is multiplication by the diagonal
matrix of those phases (`A * phase[np.newaxis, :]` versus `A @ np.diag(phase)`). -/
lemma of_mul_phase_eq_mul_diagonal {n : ℕ} (A : Mat n) (φ : Fin n → ℂ) :
    (Matrix.of fun i j => A i j * φ j) = A * Matrix.diagonal φ := by
  ext i j
  rw [Matrix.mul_diagonal]
  rfl

/-- The single-operator step propagator is invariant under a simultaneous
permutation of the eigenvalues and the eigenvector columns. -/
lemma propagatorSingle_perm {n : ℕ} (V : Mat n) (D : Fin n → ℝ) (dt : ℝ)
    (σ : Equiv.Perm (Fin n)) :
    propagatorSingle (D ∘ σ, V.submatrix id σ) dt = propagatorSingle (D, V) dt := by
  unfold propagatorSingle
  ext i j
  rw [sandwich_apply, sandwich_apply]
  calc ∑ k, (V.submatrix id σ) i k * Complex.exp (-Complex.I * (D ∘ σ) k * dt) *
        star ((V.submatrix id σ) j k)
      = ∑ k, V i (σ k) * Complex.exp (-Complex.I * D (σ k) * dt) * star (V j (σ k)) := rfl
    _ = ∑ k, V i k * Complex.exp (-Complex.I * D k * dt) * star (V j k) :=
        Equiv.sum_comp σ fun k => V i k * Complex.exp (-Complex.I * D k * dt) * star (V j k)

/-- With `Vᴴ·V = I` the single-operator propagator is unitary. -/
lemma propagatorSingle_unitary {n : ℕ} (DV : (Fin n → ℝ) × Mat n) (dt : ℝ)
    (h : DV.2ᴴ * DV.2 = 1) :
    (propagatorSingle DV dt)ᴴ * propagatorSingle DV dt = 1 :=
  sandwich_unitary DV.2 _ h fun j => star_phase_mul_self (DV.1 j) dt

/-! ### The greedy assignment is a permutation -/

lemma argmaxFirst_mem {n : ℕ} (f : Fin n → ℝ) (s : Finset (Fin n))
    (h : s.Nonempty) : argmaxFirst f s h ∈ s := by
  unfold argmaxFirst
  exact Finset.filter_subset _ s (Finset.min'_mem _ _)

lemma greedyAssignAux_length {n : ℕ} (O : Fin n → Fin n → ℝ) :
    ∀ (ks : List (Fin n)) (used : Finset (Fin n)),
      ks.length + used.card ≤ n → (greedyAssignAux O ks used).length = ks.length := by
  intro ks
  induction ks with
  | nil => intro used _; simp [greedyAssignAux]
  | cons k ks ih =>
    intro used h
    have hlt : used.card < n := by
      simp only [List.length_cons] at h
      omega
    have hne : (Finset.univ \ used).Nonempty := by
      rw [← Finset.card_pos, Finset.card_sdiff (Finset.subset_univ _),
        Finset.card_univ, Fintype.card_fin]
      omega
    rw [greedyAssignAux, dif_pos hne]
    simp only [List.length_cons]
    rw [ih]
    have hj : argmaxFirst (O k) _ hne ∉ used :=
      (Finset.mem_sdiff.mp (argmaxFirst_mem (O k) _ hne)).2
    rw [Finset.card_insert_of_not_mem hj]
    simp only [List.length_cons] at h
    omega

lemma greedyAssignAux_not_used {n : ℕ} (O : Fin n → Fin n → ℝ) :
    ∀ (ks : List (Fin n)) (used : Finset (Fin n)),
      ∀ x ∈ greedyAssignAux O ks used, x ∉ used := by
  intro ks
  induction ks with
  | nil => intro used x hx; simp [greedyAssignAux] at hx
  | cons k ks ih =>
    intro used x hx
    rw [greedyAssignAux] at hx
    by_cases hne : (Finset.univ \ used).Nonempty
    · rw [dif_pos hne] at hx
      rcases List.mem_cons.mp hx with rfl | hmem
      · exact (Finset.mem_sdiff.mp (argmaxFirst_mem (O k) _ hne)).2
      · exact fun hc =>
          ih (insert _ used) x hmem (Finset.mem_insert_of_mem hc)
    · rw [dif_neg hne] at hx
      simp at hx

lemma greedyAssignAux_nodup {n : ℕ} (O : Fin n → Fin n → ℝ) :
    ∀ (ks : List (Fin n)) (used : Finset (Fin n)),
      (greedyAssignAux O ks used).Nodup := by
  intro ks
  induction ks with
  | nil => intro used; simp [greedyAssignAux]
  | cons k ks ih =>
    intro used
    rw [greedyAssignAux]
    by_cases hne : (Finset.univ \ used).Nonempty
    · rw [dif_pos hne]
      refine List.nodup_cons.mpr ⟨fun hc => ?_, ih _⟩
      exact greedyAssignAux_not_used O ks _ _ hc (Finset.mem_insert_self _ used)
    · rw [dif_neg hne]
      exact List.nodup_nil

lemma greedyAssign_length {n : ℕ} (O : Fin n → Fin n → ℝ) :
    (greedyAssign O).length = n := by
  unfold greedyAssign
  rw [greedyAssignAux_length O _ _ (by simp), List.length_finRange]

lemma reorderAssign_injective {n : ℕ} (O : Fin n → Fin n → ℝ) :
    Function.Injective (reorderAssign O) := by
  intro a b hab
  unfold reorderAssign at hab
  have ha : a.val < (greedyAssign O).length := by
    rw [greedyAssign_length]; exact a.isLt
  have hb : b.val < (greedyAssign O).length := by
    rw [greedyAssign_length]; exact b.isLt
  rw [List.getD_eq_getElem _ _ ha, List.getD_eq_getElem _ _ hb] at hab
  have h := List.Nodup.getElem_inj_iff (greedyAssignAux_nodup O _ _) |>.mp hab
  exact Fin.ext h

lemma reorderAssign_bijective {n : ℕ} (O : Fin n → Fin n → ℝ) :
    Function.Bijective (reorderAssign O) :=
  Finite.injective_iff_bijective.mp (reorderAssign_injective O)

/-- The greedy assignment of spec §4.2, packaged as a permutation. -/
noncomputable def reorderPermEquiv {n : ℕ} (O : Fin n → Fin n → ℝ) :
    Equiv.Perm (Fin n) :=
  Equiv.ofBijective _ (reorderAssign_bijective O)

/-- `reorder_evecs` permutes eigenvalues and eigenvector columns by one and
the same permutation (spec §4.2: "permutation, not many-to-one"). -/
lemma reorder_evecs_eq_perm {n : ℕ} (V : Mat n) (D : Fin n → ℝ) (Vref : Mat n) :
    ∃ σ : Equiv.Perm (Fin n),
      reorder_evecs V D Vref = (D ∘ σ, V.submatrix id σ) :=
  ⟨reorderPermEquiv (overlapO V Vref), rfl⟩

/-! ### Norm conservation through the step loops -/

/-- Squared Euclidean norm of each tracked state vector. -/
noncomputable def normsList {n : ℕ} (psis : List (Vec n)) : List ℝ :=
  psis.map fun ψ => ∑ i, Complex.normSq (ψ i)

lemma normsList_map_mulVec {n : ℕ} (U : Mat n) (hU : Uᴴ * U = 1)
    (psis : List (Vec n)) :
    normsList (psis.map fun ψ => U.mulVec ψ) = normsList psis := by
  unfold normsList
  rw [List.map_map]
  exact List.map_congr_left fun ψ _ => sum_normSq_mulVec U hU ψ

/-- The dual-operator propagator is unitary whenever the combined matrix
`A = V·V_rot` satisfies `Aᴴ·A = I`. -/
lemma propagatorDual_unitary {n : ℕ} (A : Mat n) (Drot : Fin n → ℝ) (dt : ℝ)
    (hA : Aᴴ * A = 1) :
    (propagatorDual A Drot dt)ᴴ * propagatorDual A Drot dt = 1 := by
  unfold propagatorDual
  rw [of_mul_phase_eq_mul_diagonal]
  exact sandwich_unitary A _ hA fun j => star_phase_mul_self (Drot j) dt

lemma evolveLoop_norms {n : ℕ} (solve : Mat n → (Fin n → ℝ) × Mat n)
    (hsolve : ∀ H, ((solve H).2)ᴴ * (solve H).2 = 1)
    (Hslow : ℝ → Mat n) (VrefIni : Mat n) :
    ∀ (ts : List ℝ) (psis : List (Vec n)) (Vref : Mat n),
      ∀ r ∈ (evolveLoop solve Hslow VrefIni ts psis Vref).1,
        normsList r.psis = normsList psis := by
  intro ts
  induction ts with
  | nil => intro psis Vref r hr; simp [evolveLoop] at hr
  | cons t rest ih =>
    intro psis Vref r hr
    cases rest with
    | nil => simp [evolveLoop] at hr
    | cons t' rest' =>
      simp only [evolveLoop] at hr
      have hstep : normsList (psis.map fun ψ =>
          (propagatorSingle (solve (Hslow t)) (t' - t)).mulVec ψ) = normsList psis :=
        normsList_map_mulVec _
          (propagatorSingle_unitary (solve (Hslow t)) (t' - t) (hsolve (Hslow t))) psis
      rcases List.mem_cons.mp hr with rfl | hmem
      · exact hstep
      · exact (ih _ _ r hmem).trans hstep

lemma evolveMuLoop_norms {n : ℕ} (solve : Mat n → (Fin n → ℝ) × Mat n)
    (hsolve : ∀ H, ((solve H).2)ᴴ * (solve H).2 = 1)
    (Hslow Hmu : ℝ → Mat n) (Dmu : Mat n) :
    ∀ (ts : List ℝ) (psis : List (Vec n)) (Vref : Mat n),
      ∀ r ∈ (evolveMuLoop solve Hslow Hmu Dmu ts psis Vref).1,
        normsList r.psis = normsList psis := by
  intro ts
  induction ts with
  | nil => intro psis Vref r hr; simp [evolveMuLoop] at hr
  | cons t rest ih =>
    intro psis Vref r hr
    cases rest with
    | nil => simp [evolveMuLoop] at hr
    | cons t' rest' =>
      simp only [evolveMuLoop] at hr
      set DV := solve (Hslow t) with hDV
      set idx := Tuple.sort DV.1 with hidx
      set V : Mat n := DV.2.submatrix id idx with hV
      set Hrot := Vᴴ * (Hslow t + Hmu t) * V + Dmu with hHrot
      set A := V * (solve Hrot).2 with hA
      have hVu : Vᴴ * V = 1 := submatrix_perm_unitary DV.2 idx (hsolve (Hslow t))
      have hAu : Aᴴ * A = 1 := mul_unitary V (solve Hrot).2 hVu (hsolve Hrot)
      set U := propagatorDual A (solve Hrot).1 (t' - t) with hU
      have hUu : Uᴴ * U = 1 := propagatorDual_unitary A _ _ hAu
      have hfun : (fun ψ : Vec n => Matrix.vecMul ψ Uᵀ) = fun ψ => U.mulVec ψ :=
        funext fun ψ => Matrix.vecMul_transpose U ψ
      have hstep : normsList (psis.map fun ψ => Matrix.vecMul ψ Uᵀ) = normsList psis := by
        rw [hfun]
        exact normsList_map_mulVec U hUu psis
      rcases List.mem_cons.mp hr with rfl | hmem
      · exact hstep
      · exact (ih _ _ r hmem).trans hstep

/-! ### The state-vector track does not depend on the reference bases -/

lemma evolveLoop_psis_indep {n : ℕ} (solve : Mat n → (Fin n → ℝ) × Mat n)
    (Hslow : ℝ → Mat n) :
    ∀ (ts : List ℝ) (psis : List (Vec n)) (VrefIni₁ VrefIni₂ Vref₁ Vref₂ : Mat n),
      (evolveLoop solve Hslow VrefIni₁ ts psis Vref₁).1.map (·.psis) =
      (evolveLoop solve Hslow VrefIni₂ ts psis Vref₂).1.map (·.psis) := by
  intro ts
  induction ts with
  | nil => intros; simp [evolveLoop]
  | cons t rest ih =>
    intro psis V1 V2 W1 W2
    cases rest with
    | nil => simp [evolveLoop]
    | cons t' rest' =>
      simp only [evolveLoop, List.map_cons]
      exact congrArg₂ List.cons rfl (ih _ _ _ _ _)

/-! ### Step recurrence of the recorded state vectors -/

lemma evolveLoop_timeline {n : ℕ} (solve : Mat n → (Fin n → ℝ) × Mat n)
    (Hslow : ℝ → Mat n) (VrefIni : Mat n) :
    ∀ (ts : List ℝ) (psis : List (Vec n)) (Vref : Mat n) (i : ℕ),
      i + 1 < ts.length →
      (psis :: (evolveLoop solve Hslow VrefIni ts psis Vref).1.map (·.psis))[i+1]? =
        ((psis :: (evolveLoop solve Hslow VrefIni ts psis Vref).1.map (·.psis))[i]?).map
          (List.map (Matrix.mulVec (propagatorSingle (solve (Hslow (ts.getD i 0)))
            (ts.getD (i+1) 0 - ts.getD i 0)))) := by
  intro ts
  induction ts with
  | nil => intro psis Vref i hi; simp at hi
  | cons t rest ih =>
    intro psis Vref i hi
    cases rest with
    | nil => simp at hi
    | cons t' rest' =>
      simp only [evolveLoop, List.map_cons]
      cases i with
      | zero =>
        simp only [List.getElem?_cons_zero, List.getElem?_cons_succ, Option.map_some,
          List.getD_cons_zero, List.getD_cons_succ]
        rfl
      | succ i' =>
        have hlen : i' + 1 < (t' :: rest').length := by
          simp only [List.length_cons] at hi ⊢
          omega
        have htail := ih
          (psis.map fun ψ => (propagatorSingle (solve (Hslow t)) (t' - t)).mulVec ψ)
          (reorder_evecs (solve (Hslow t)).2 (solve (Hslow t)).1 Vref).2 i' hlen
        simp only [List.getElem?_cons_succ, List.getD_cons_succ] at htail ⊢
        exact htail

/-! ### Dual-operator mode with zero coupling reproduces single-operator mode -/

/-- The eigensolver contract of spec §4.1 for a Hermitian input: ascending
eigenvalues, unitary eigenvector matrix, and the exact eigen-relationship
`H·V = V·diag(D)`. -/
def ExactAscSolver {n : ℕ} (s : Mat n → (Fin n → ℝ) × Mat n) : Prop :=
  ∀ H : Mat n, H.IsHermitian →
    Monotone (s H).1 ∧ ((s H).2)ᴴ * (s H).2 = 1 ∧
      H * (s H).2 = (s H).2 * Matrix.diagonal fun i => ((s H).1 i : ℂ)

lemma solveStep_exact {n : ℕ} (z : Zheevd n) (e : Eigh n)
    (hz : ExactAscSolver fun H => ((z H).1, (z H).2.1)) (he : ExactAscSolver e) :
    ExactAscSolver (solveStep z e) := by
  intro H hH
  by_cases h : (z H).2.2 ≠ 0
  · simpa [solveStep, h] using he H hH
  · simpa [solveStep, h] using hz H hH

lemma solveStep_diag {n : ℕ} (z : Zheevd n) (e : Eigh n)
    (hdiag : ∀ d : Fin n → ℝ, Monotone d →
      z (Matrix.diagonal fun i => (d i : ℂ)) = (d, 1, 0)) :
    ∀ d : Fin n → ℝ, Monotone d →
      solveStep z e (Matrix.diagonal fun i => (d i : ℂ)) = (d, 1) := by
  intro d hd
  simp only [solveStep, hdiag d hd]
  simp

lemma evolveMuLoop_zero_eq {n : ℕ} (solve : Mat n → (Fin n → ℝ) × Mat n)
    (hsolve : ExactAscSolver solve)
    (hdiagS : ∀ d : Fin n → ℝ, Monotone d →
      solve (Matrix.diagonal fun i => (d i : ℂ)) = (d, 1))
    (Hslow : ℝ → Mat n) (hherm : ∀ t, (Hslow t).IsHermitian) (VrefIni : Mat n) :
    ∀ (ts : List ℝ) (psis : List (Vec n)) (Vref : Mat n),
      (evolveMuLoop solve Hslow (fun _ => 0) 0 ts psis Vref).1 =
        (evolveLoop solve Hslow VrefIni ts psis Vref).1.map
          fun r => (⟨r.psis, r.Es, r.probs⟩ : StepRecMu n) := by
  intro ts
  induction ts with
  | nil => intro psis Vref; simp [evolveMuLoop, evolveLoop]
  | cons t rest ih =>
    intro psis Vref
    cases rest with
    | nil => simp [evolveMuLoop, evolveLoop]
    | cons t' rest' =>
      obtain ⟨hmono, hunit, hexact⟩ := hsolve (Hslow t) (hherm t)
      have hsort : Tuple.sort (solve (Hslow t)).1 = Equiv.refl _ :=
        Tuple.sort_eq_refl_iff_monotone.mpr hmono
      have hconj : (solve (Hslow t)).2ᴴ * Hslow t * (solve (Hslow t)).2 =
          Matrix.diagonal fun i => ((solve (Hslow t)).1 i : ℂ) := by
        rw [Matrix.mul_assoc, hexact, ← Matrix.mul_assoc, hunit, Matrix.one_mul]
      have hsolverot : solve ((solve (Hslow t)).2ᴴ * Hslow t * (solve (Hslow t)).2)
          = ((solve (Hslow t)).1, 1) := by
        rw [hconj]; exact hdiagS _ hmono
      have hprop : propagatorDual (solve (Hslow t)).2 (solve (Hslow t)).1 (t' - t)
          = propagatorSingle (solve (Hslow t)) (t' - t) := by
        unfold propagatorDual propagatorSingle
        rw [of_mul_phase_eq_mul_diagonal]
      have hvec : (fun ψ : Vec n => Matrix.vecMul ψ
            (propagatorSingle (solve (Hslow t)) (t' - t))ᵀ)
          = fun ψ => (propagatorSingle (solve (Hslow t)) (t' - t)).mulVec ψ :=
        funext fun ψ => Matrix.vecMul_transpose _ ψ
      simp only [evolveMuLoop, evolveLoop, List.map_cons]
      rw [hsort]
      simp only [Equiv.coe_refl, Function.comp_id, Matrix.submatrix_id_id,
        add_zero, hsolverot, mul_one, hprop, hvec]
      exact congrArg₂ List.cons rfl (ih _ _)

/-! ### Concrete fixtures for counterexamples and witnesses -/

/-- A trivial stand-in for `zheevd` that always reports success. -/
noncomputable def zTriv (n : ℕ) : Zheevd n := fun _ => (fun _ => 0, 1, 0)

/-- A trivial stand-in for `np.linalg.eigh`. -/
noncomputable def eTriv (n : ℕ) : Eigh n := fun _ => (fun _ => 0, 1)

/-- A two-level simulator carrying one microwave field (`Jg = 0`, `Je = 1`,
frequency 1). -/
noncomputable def simC2 : Simulator 2 :=
  ⟨1, ![0, 1], fun _ => 0, [], some [⟨0, 1, 1, none, none⟩]⟩

/-- A three-level simulator carrying two microwave fields addressing disjoint
upper levels (`Je = 1` at frequency 1 and `Je = 2` at frequency 2). -/
noncomputable def simC4 : Simulator 3 :=
  ⟨1, ![0, 1, 2], fun _ => 0, [], some [⟨0, 1, 1, none, none⟩, ⟨1, 2, 2, none, none⟩]⟩

/-- Entry characterization of the shift matrix computed (and then discarded)
inside `MicrowaveField.generate_D`. -/
lemma generate_D_localD_apply {n : ℕ} (QNJ : Fin n → ℤ) (Je : ℤ) (freq : ℝ)
    (a b : Fin n) :
    generate_D_localD QNJ Je freq a b =
      if a = b ∧ QNJ a = Je then -(2 * Real.pi * freq) else 0 := by
  have main : ∀ (l : List (Fin n)) (Dinit : Matrix (Fin n) (Fin n) ℝ),
      (l.foldl (fun D i =>
        if QNJ i = Je then
          Matrix.updateRow D i (Function.update (D i) i (-(2 * Real.pi * freq)))
        else D) Dinit) a b
        = if a = b ∧ a ∈ l ∧ QNJ a = Je then -(2 * Real.pi * freq) else Dinit a b := by
    intro l
    induction l with
    | nil => intro Dinit; simp
    | cons i l ih =>
      intro Dinit
      rw [List.foldl_cons, ih]
      by_cases hib : a = b ∧ a ∈ l ∧ QNJ a = Je
      · rw [if_pos hib, if_pos ⟨hib.1, List.mem_cons_of_mem i hib.2.1, hib.2.2⟩]
      · rw [if_neg hib]
        by_cases hstep : QNJ i = Je
        · rw [if_pos hstep, Matrix.updateRow_apply]
          by_cases hai : a = i
          · rw [if_pos hai]
            subst hai
            rw [Function.update_apply]
            by_cases hbi : b = a
            · subst hbi
              rw [if_pos rfl, if_pos ⟨rfl, List.mem_cons_self _ _, hstep⟩]
            · rw [if_neg hbi, if_neg fun hc => hbi hc.1.symm]
          · rw [if_neg hai, if_neg]
            intro hc
            exact hib ⟨hc.1, (List.mem_cons.mp hc.2.1).resolve_left hai, hc.2.2⟩
        · rw [if_neg hstep, if_neg]
          intro hc
          rcases List.mem_cons.mp hc.2.1 with hai | hal
          · exact hstep (hai ▸ hc.2.2)
          · exact hib ⟨hc.1, hal, hc.2.2⟩
  unfold generate_D_localD
  rw [main]
  simp [List.mem_finRange]

/-- C1. Claimed: a completed run without microwave fields emits a
`SimulationResult` carrying the diabatic-energy series computed during
`_time_evolve`, and `get_state_energy_diabatic` returns its column selected
against `V_ini`. In the code, `_time_evolve` computes `energies_diabatic`
(lines 362, 384, 395) but returns only
`psis_t, energies, probabilities, V_ref_ini, V_ref` (line 401); `run` passes
exactly those five arrays to the `SimulationResult` constructor
(lines 314-327) and nothing ever assigns the `energies_diabatic` attribute,
so `get_state_energy_diabatic` (line 213) finds no such attribute: the
modelled read yields `none` (Python: `AttributeError`) for every state, on
every successful microwave-free run. -/
theorem c1_diabatic_series_dropped {n : ℕ} [NeZero n] (z : Zheevd n) (e : Eigh n)
    (T : ℝ) (QNJ : Fin n → ℤ) (Hfunc : ℝ → Mat n) (approx : List (Vec n))
    (N : ℕ) (hN : N ≠ 0) (s : Vec n) :
    (Simulator.run z e ⟨T, QNJ, Hfunc, approx, none⟩ N).map
      (fun r => r.get_state_energy_diabatic s) = Except.ok none := by
  simp only [Simulator.run]
  rw [if_neg hN]
  simp [SimulationResult.get_state_energy_diabatic, Except.map]

/-- Witness for `c1_diabatic_series_dropped` at a concrete 1-level run. -/
theorem c1_diabatic_series_dropped_witness :
    (2 ≠ 0) ∧
    (Simulator.run (zTriv 1) (eTriv 1) ⟨1, fun _ => 0, fun _ => 0, [], none⟩ 2).map
      (fun r => r.get_state_energy_diabatic fun _ => 1) = Except.ok none :=
  ⟨by decide,
    c1_diabatic_series_dropped (zTriv 1) (eTriv 1) 1 (fun _ => 0) (fun _ => 0) [] 2
      (by decide) fun _ => 1⟩

/-- C2 counterexample. The claim attributes the failure of `run` with
microwave fields to the `generate_D(QN, omega=...)` signature mismatch
(a `TypeError`). On a concrete simulator with one microwave field, the
exception actually raised is the `AttributeError` for the missing
`get_H_t_func` method, thrown at the first statement of the microwave loop
(simulator.py:271-275) — so the run never reaches the `generate_D` call
and no `TypeError` is raised. -/
theorem c2_counterexample :
    Simulator.run (zTriv 2) (eTriv 2) simC2 5 =
      Except.error (PyErr.attributeError "MicrowaveField" "get_H_t_func") ∧
    ∀ m, Simulator.run (zTriv 2) (eTriv 2) simC2 5 ≠
      Except.error (PyErr.typeError m) := by
  have h1 : Simulator.run (zTriv 2) (eTriv 2) simC2 5 =
      Except.error (PyErr.attributeError "MicrowaveField" "get_H_t_func") := rfl
  refine ⟨h1, fun m hm => ?_⟩
  rw [h1] at hm
  injection hm with h2
  exact PyErr.noConfusion h2

/-- C2 (amended): for every simulator whose `microwave_fields` list is
non-empty, `run` raises an exception during rotating-frame setup, before
entering the time-evolution loop — namely the `AttributeError` for the
missing `MicrowaveField.get_H_t_func` method at the first loop statement;
the `generate_D` omega signature mismatch and the never-assigned `self.D`
are further latent faults on the same (never reached) path. -/
theorem c2_run_fails_before_loop {n : ℕ} [NeZero n] (z : Zheevd n) (e : Eigh n)
    (T : ℝ) (QNJ : Fin n → ℤ) (Hfunc : ℝ → Mat n) (approx : List (Vec n))
    (f : MicrowaveField n) (fs : List (MicrowaveField n)) (N : ℕ) :
    Simulator.run z e ⟨T, QNJ, Hfunc, approx, some (f :: fs)⟩ N =
      Except.error (PyErr.attributeError "MicrowaveField" "get_H_t_func") := rfl

/-- C3. Claimed: per distinct frequency group, the shift summed into `D_mu`
is the field's own `-2π·muW_freq` on the diagonal entries with `J = Je` and
zero elsewhere. The body of `MicrowaveField.generate_D` does compute exactly
that matrix (third conjunct), but the method discards it: it assigns no
attribute and returns `None`, leaving `self.D` unchanged (first conjunct),
`None` as set by `__init__` (second conjunct); moreover `run` with any
non-empty microwave-field list raises `AttributeError` for the missing
`get_H_t_func` before any shift could be accumulated into `D_mu`
(fourth conjunct). -/
theorem c3_generate_D_discards_shift {n : ℕ} [NeZero n] :
    (∀ (mf : MicrowaveField n) (QNJ : Fin n → ℤ), (mf.generate_D QNJ).D = mf.D) ∧
    (∀ (Jg Je : ℤ) (freq : ℝ),
      ({ Jg := Jg, Je := Je, muW_freq := freq } : MicrowaveField n).D = none) ∧
    (∀ (QNJ : Fin n → ℤ) (Je : ℤ) (freq : ℝ) (a b : Fin n),
      generate_D_localD QNJ Je freq a b =
        if a = b ∧ QNJ a = Je then -(2 * Real.pi * freq) else 0) ∧
    (∀ (z : Zheevd n) (e : Eigh n) (T : ℝ) (QNJ : Fin n → ℤ) (Hfunc : ℝ → Mat n)
      (approx : List (Vec n)) (f : MicrowaveField n)
      (fs : List (MicrowaveField n)) (N : ℕ),
      Simulator.run z e ⟨T, QNJ, Hfunc, approx, some (f :: fs)⟩ N =
        Except.error (PyErr.attributeError "MicrowaveField" "get_H_t_func")) :=
  ⟨fun _ _ => rfl, fun _ _ _ => rfl,
    fun QNJ Je freq a b => generate_D_localD_apply QNJ Je freq a b,
    fun _ _ _ _ _ _ _ _ _ => rfl⟩

/-- C4. Claimed: the consistency `AssertionError` is raised iff two distinct
frequency groups shift the same diagonal entry, and in particular no error
is raised when the groups are disjoint. On `simC4`, whose two fields address
disjoint upper levels (second conjunct: their intended shift matrices share
no nonzero entry), `run` nevertheless fails — with the `AttributeError` for
the missing `get_H_t_func`, before the overlap check at simulator.py:286-289
could execute — and the `AssertionError` of the claim is never raised
(first conjunct). -/
theorem c4_conflict_check_unreachable :
    (∀ (z : Zheevd 3) (e : Eigh 3),
      Simulator.run z e simC4 10 =
        Except.error (PyErr.attributeError "MicrowaveField" "get_H_t_func") ∧
      ∀ m, Simulator.run z e simC4 10 ≠ Except.error (PyErr.assertionError m)) ∧
    (∀ a b : Fin 3,
      ¬(generate_D_localD simC4.QNJ 1 1 a b ≠ 0 ∧
        generate_D_localD simC4.QNJ 2 2 a b ≠ 0)) := by
  constructor
  · intro z e
    have h1 : Simulator.run z e simC4 10 =
        Except.error (PyErr.attributeError "MicrowaveField" "get_H_t_func") := rfl
    refine ⟨h1, fun m hm => ?_⟩
    rw [h1] at hm
    injection hm with h2
    exact PyErr.noConfusion h2
  · intro a b h
    rw [generate_D_localD_apply, generate_D_localD_apply] at h
    rcases h with ⟨h1, h2⟩
    by_cases hc1 : a = b ∧ simC4.QNJ a = 1
    · by_cases hc2 : a = b ∧ simC4.QNJ a = 2
      · exact absurd (hc1.2.symm.trans hc2.2) (by decide)
      · exact h2 (if_neg hc2)
    · exact h1 (if_neg hc1)

/-- A solver equal to `zheevd` where it succeeds and to `np.linalg.eigh`
where `zheevd` reports failure, always reporting success: what the caller
of `solveStep` effectively sees. -/
def zPatched {n : ℕ} (z : Zheevd n) (e : Eigh n) : Zheevd n :=
  fun H => if (z H).2.2 ≠ 0 then ((e H).1, (e H).2, 0) else z H

/-- C6. At every per-step diagonalization the engine uses `solveStep`: on a
non-success status from `zheevd` it recomputes once with `np.linalg.eigh`
and otherwise keeps the `zheevd` output (first conjunct); the patched,
never-failing solver is indistinguishable through `solveStep` (second
conjunct) and hence through the whole of `_time_evolve` (third conjunct)
and `_time_evolve_mu`, where both the slow-Hamiltonian and the `H_rot`
diagonalizations go through `solveStep` (fourth conjunct): no error is
surfaced and there is no second retry. -/
theorem c6_single_fallback_transparent {n : ℕ} [NeZero n] (z : Zheevd n)
    (e : Eigh n) :
    (∀ H : Mat n, ((z H).2.2 ≠ 0 → solveStep z e H = e H) ∧
      ((z H).2.2 = 0 → solveStep z e H = ((z H).1, (z H).2.1))) ∧
    solveStep (zPatched z e) e = solveStep z e ∧
    (∀ (Hslow : ℝ → Mat n) (approx : List (Vec n)) (ts : List ℝ),
      time_evolve (zPatched z e) e Hslow approx ts =
        time_evolve z e Hslow approx ts) ∧
    (∀ (Hslow Hmu : ℝ → Mat n) (Dmu : Mat n) (approx : List (Vec n))
      (ts : List ℝ),
      time_evolve_mu (zPatched z e) e Hslow Hmu Dmu approx ts =
        time_evolve_mu z e Hslow Hmu Dmu approx ts) := by
  have hchar : ∀ H : Mat n, ((z H).2.2 ≠ 0 → solveStep z e H = e H) ∧
      ((z H).2.2 = 0 → solveStep z e H = ((z H).1, (z H).2.1)) := by
    intro H
    constructor
    · intro h; simp [solveStep, h]
    · intro h; simp [solveStep, h]
  have h2 : solveStep (zPatched z e) e = solveStep z e := by
    funext H
    by_cases h : (z H).2.2 = 0
    · simp [zPatched, solveStep, h]
    · simp [zPatched, solveStep, h]
  refine ⟨hchar, h2, ?_, ?_⟩
  · intro Hslow approx ts
    cases ts with
    | nil => rfl
    | cons t0 rest => simp only [time_evolve]; rw [h2]
  · intro Hslow Hmu Dmu approx ts
    cases ts with
    | nil => rfl
    | cons t0 rest => simp only [time_evolve_mu]; rw [h2]

/-- Witness for `c6_single_fallback_transparent`: a solver reporting failure
(`info = 1`) on the zero matrix is replaced by the fallback; one reporting
success is kept. -/
theorem c6_single_fallback_transparent_witness :
    ((((fun _ => (fun _ => 0, 1, 1)) : Zheevd 1) 0).2.2 ≠ 0 ∧
      solveStep (fun _ => (fun _ => 0, 1, 1)) (eTriv 1) 0 = eTriv 1 0) ∧
    (((zTriv 1) 0).2.2 = 0 ∧
      solveStep (zTriv 1) (eTriv 1) 0 = (((zTriv 1) 0).1, ((zTriv 1) 0).2.1)) := by
  refine ⟨⟨by decide, ?_⟩, ⟨by decide, ?_⟩⟩
  · exact ((c6_single_fallback_transparent (fun _ => (fun _ => 0, 1, 1))
      (eTriv 1)).1 0).1 (by decide)
  · exact ((c6_single_fallback_transparent (zTriv 1) (eTriv 1)).1 0).2 (by decide)

/-- C8. For any eigenvector matrix with `Vᴴ·V = I` and any collection of
unit-norm tracked state vectors, every probability row produced by
`calculate_probabilities` — the squared magnitudes of the overlaps of the
state vector with all eigenvector columns — sums to exactly 1. -/
theorem c8_probability_rows_sum_to_one {n : ℕ} (psis : List (Vec n)) (V : Mat n)
    (hV : Vᴴ * V = 1) (hψ : ∀ ψ ∈ psis, ∑ i, Complex.normSq (ψ i) = 1) :
    ∀ p ∈ calculate_probabilities psis V, ∑ i, p i = 1 := by
  intro p hp
  obtain ⟨ψ, hmem, rfl⟩ := List.mem_map.mp hp
  have hU : (Vᴴ)ᴴ * Vᴴ = 1 := by
    rw [Matrix.conjTranspose_conjTranspose]
    exact Matrix.mul_eq_one_comm.mp hV
  calc ∑ i, Complex.normSq ((Vᴴ).mulVec ψ i) = ∑ i, Complex.normSq (ψ i) :=
        sum_normSq_mulVec Vᴴ hU ψ
    _ = 1 := hψ ψ hmem

/-- Witness for `c8_probability_rows_sum_to_one` on a concrete one-level
system. -/
theorem c8_probability_rows_sum_to_one_witness :
    ((1 : Mat 1)ᴴ * 1 = 1) ∧
    (∀ ψ ∈ [(fun _ => 1 : Vec 1)], ∑ i, Complex.normSq (ψ i) = 1) ∧
    ∀ p ∈ calculate_probabilities [(fun _ => 1 : Vec 1)] 1, ∑ i, p i = 1 := by
  have h1 : (1 : Mat 1)ᴴ * 1 = 1 := by simp
  have h2 : ∀ ψ ∈ [(fun _ => 1 : Vec 1)], ∑ i, Complex.normSq (ψ i) = 1 := by
    intro ψ hψ
    rw [List.mem_singleton] at hψ
    subst hψ
    simp
  exact ⟨h1, h2, c8_probability_rows_sum_to_one [fun _ => 1] 1 h1 h2⟩

/-- C10. For a unitary `V`, real `D` and any permutation, the propagator
`V·diag(exp(-i·D·dt))·Vᴴ` is unchanged by simultaneously permuting the
eigenvalues and the eigenvector columns (first conjunct); in particular the
propagator built from the `reorder_evecs`-reordered eigenbasis equals the
one `_time_evolve` builds from the unreordered eigensolver output (second
conjunct); and the chained state evolution — the `psis` track of the step
loop — does not depend on the reference bases used for the continuity
relabeling at all (third conjunct). -/
theorem c10_propagator_reorder_invariant {n : ℕ} (V : Mat n) (D : Fin n → ℝ)
    (dt : ℝ) (σ : Equiv.Perm (Fin n)) (Vref : Mat n) (hV : Vᴴ * V = 1) :
    propagatorSingle (D ∘ σ, V.submatrix id σ) dt = propagatorSingle (D, V) dt ∧
    propagatorSingle (reorder_evecs V D Vref) dt = propagatorSingle (D, V) dt ∧
    ∀ (solve : Mat n → (Fin n → ℝ) × Mat n) (Hslow : ℝ → Mat n)
      (ts : List ℝ) (psis : List (Vec n)) (VrefIni₁ VrefIni₂ Vref₁ Vref₂ : Mat n),
      (evolveLoop solve Hslow VrefIni₁ ts psis Vref₁).1.map (·.psis) =
        (evolveLoop solve Hslow VrefIni₂ ts psis Vref₂).1.map (·.psis) := by
  refine ⟨propagatorSingle_perm V D dt σ, ?_,
    fun solve Hslow ts psis a b c d => evolveLoop_psis_indep solve Hslow ts psis a b c d⟩
  obtain ⟨σ', hσ'⟩ := reorder_evecs_eq_perm V D Vref
  rw [hσ']
  exact propagatorSingle_perm V D dt σ'

/-- Witness for `c10_propagator_reorder_invariant` at the identity matrix. -/
theorem c10_propagator_reorder_invariant_witness :
    ((1 : Mat 1)ᴴ * 1 = 1) ∧
    propagatorSingle ((fun _ => (0 : ℝ)) ∘ (Equiv.refl (Fin 1)),
      (1 : Mat 1).submatrix id (Equiv.refl (Fin 1))) 0 =
      propagatorSingle (fun _ => (0 : ℝ), (1 : Mat 1)) 0 := by
  have h1 : (1 : Mat 1)ᴴ * 1 = 1 := by simp
  exact ⟨h1,
    (c10_propagator_reorder_invariant 1 (fun _ => 0) 0 (Equiv.refl _) 1 h1).1⟩

/-- Shape of the recorded state-vector series of `_time_evolve` on a
nonempty grid: row 0 is the initial ensemble, the rest comes from the step
loop. -/
lemma time_evolve_psis_t_cons {n : ℕ} [NeZero n] (z : Zheevd n) (e : Eigh n)
    (Hslow : ℝ → Mat n) (approx : List (Vec n)) (t0 : ℝ) (rest : List ℝ) :
    (time_evolve z e Hslow approx (t0 :: rest)).psis_t =
      init_state_vecs e (Hslow t0) approx ::
        (evolveLoop (solveStep z e) Hslow (e (Hslow t0)).2 (t0 :: rest)
          (init_state_vecs e (Hslow t0) approx) (e (Hslow t0)).2).1.map (·.psis) :=
  rfl

/-- Shape of the recorded state-vector series of `_time_evolve_mu` on a
nonempty grid. -/
lemma time_evolve_mu_psis_t_cons {n : ℕ} [NeZero n] (z : Zheevd n) (e : Eigh n)
    (Hslow Hmu : ℝ → Mat n) (Dmu : Mat n) (approx : List (Vec n)) (t0 : ℝ)
    (rest : List ℝ) :
    (time_evolve_mu z e Hslow Hmu Dmu approx (t0 :: rest)).psis_t =
      init_state_vecs e (Hslow t0) approx ::
        (evolveMuLoop (solveStep z e) Hslow Hmu Dmu (t0 :: rest)
          (init_state_vecs e (Hslow t0) approx)
          ((e (Hslow t0)).2.submatrix id (Tuple.sort (e (Hslow t0)).1))).1.map
            (·.psis) :=
  rfl

/-- C7. Assuming the eigenvector matrices returned by both solvers are
unitary (the eigenvalues are real by the solvers' type), every step
propagator satisfies `U_dtᴴ·U_dt = I` — in single-operator form (first
conjunct) and in dual-operator form over the combined matrix `A = V·V_rot`
(second conjunct) — and consequently, in both `_time_evolve` and
`_time_evolve_mu`, the squared norm of every tracked state vector at every
recorded time step equals its value at `t = 0` (third and fourth
conjuncts). -/
theorem c7_propagator_unitary_norms_conserved {n : ℕ} [NeZero n]
    (z : Zheevd n) (e : Eigh n)
    (hz : ∀ H : Mat n, ((z H).2.1)ᴴ * (z H).2.1 = 1)
    (he : ∀ H : Mat n, ((e H).2)ᴴ * (e H).2 = 1) :
    (∀ (DV : (Fin n → ℝ) × Mat n) (dt : ℝ), DV.2ᴴ * DV.2 = 1 →
      (propagatorSingle DV dt)ᴴ * propagatorSingle DV dt = 1) ∧
    (∀ (A : Mat n) (Drot : Fin n → ℝ) (dt : ℝ), Aᴴ * A = 1 →
      (propagatorDual A Drot dt)ᴴ * propagatorDual A Drot dt = 1) ∧
    (∀ (Hslow : ℝ → Mat n) (approx : List (Vec n)) (ts : List ℝ)
      (ps p0 : List (Vec n)),
      ps ∈ (time_evolve z e Hslow approx ts).psis_t →
      (time_evolve z e Hslow approx ts).psis_t.head? = some p0 →
      normsList ps = normsList p0) ∧
    (∀ (Hslow Hmu : ℝ → Mat n) (Dmu : Mat n) (approx : List (Vec n))
      (ts : List ℝ) (ps p0 : List (Vec n)),
      ps ∈ (time_evolve_mu z e Hslow Hmu Dmu approx ts).psis_t →
      (time_evolve_mu z e Hslow Hmu Dmu approx ts).psis_t.head? = some p0 →
      normsList ps = normsList p0) := by
  have hsolve : ∀ H : Mat n, ((solveStep z e H).2)ᴴ * (solveStep z e H).2 = 1 := by
    intro H
    by_cases h : (z H).2.2 ≠ 0
    · simpa [solveStep, h] using he H
    · simpa [solveStep, h] using hz H
  refine ⟨fun DV dt h => propagatorSingle_unitary DV dt h,
    fun A Drot dt h => propagatorDual_unitary A Drot dt h, ?_, ?_⟩
  · intro Hslow approx ts ps p0 hmem hhead
    cases ts with
    | nil => simp [time_evolve] at hmem
    | cons t0 rest =>
      rw [time_evolve_psis_t_cons] at hmem hhead
      rw [List.head?_cons] at hhead
      obtain rfl : init_state_vecs e (Hslow t0) approx = p0 := Option.some.inj hhead
      rcases List.mem_cons.mp hmem with rfl | hmem'
      · rfl
      · obtain ⟨r, hr, rfl⟩ := List.mem_map.mp hmem'
        exact evolveLoop_norms (solveStep z e) hsolve Hslow _ (t0 :: rest) _ _ r hr
  · intro Hslow Hmu Dmu approx ts ps p0 hmem hhead
    cases ts with
    | nil => simp [time_evolve_mu] at hmem
    | cons t0 rest =>
      rw [time_evolve_mu_psis_t_cons] at hmem hhead
      rw [List.head?_cons] at hhead
      obtain rfl : init_state_vecs e (Hslow t0) approx = p0 := Option.some.inj hhead
      rcases List.mem_cons.mp hmem with rfl | hmem'
      · rfl
      · obtain ⟨r, hr, rfl⟩ := List.mem_map.mp hmem'
        exact evolveMuLoop_norms (solveStep z e) hsolve Hslow Hmu Dmu
          (t0 :: rest) _ _ r hr

/-- Witness for `c7_propagator_unitary_norms_conserved` with the trivial
always-succeeding solvers on a one-level system. -/
theorem c7_propagator_unitary_norms_conserved_witness :
    (∀ H : Mat 1, (((zTriv 1) H).2.1)ᴴ * ((zTriv 1) H).2.1 = 1) ∧
    (∀ H : Mat 1, (((eTriv 1) H).2)ᴴ * ((eTriv 1) H).2 = 1) ∧
    ((propagatorSingle ((fun _ => 0 : Fin 1 → ℝ), (1 : Mat 1)) 1)ᴴ *
      propagatorSingle ((fun _ => 0 : Fin 1 → ℝ), (1 : Mat 1)) 1 = 1) := by
  have hz : ∀ H : Mat 1, (((zTriv 1) H).2.1)ᴴ * ((zTriv 1) H).2.1 = 1 := by
    intro H; simp [zTriv]
  have he : ∀ H : Mat 1, (((eTriv 1) H).2)ᴴ * ((eTriv 1) H).2 = 1 := by
    intro H; simp [eTriv]
  refine ⟨hz, he, ?_⟩
  exact (c7_propagator_unitary_norms_conserved (zTriv 1) (eTriv 1) hz he).1
    ((fun _ => 0 : Fin 1 → ℝ), (1 : Mat 1)) 1 (by simp)

lemma linspaceList_length (T : ℝ) (N : ℕ) : (linspaceList T N).length = N := by
  unfold linspaceList
  rw [List.length_map, List.length_range]

lemma linspaceList_getD (T : ℝ) (N : ℕ) (i : ℕ) (h : i < N) :
    (linspaceList T N).getD i 0 = (i : ℝ) * (T / ((N : ℝ) - 1)) := by
  unfold linspaceList
  rw [List.getD_eq_getElem _ _ (by rw [List.length_map, List.length_range]; exact h)]
  rw [List.getElem_map, List.getElem_range]

/-- C9. Over the grid `np.linspace(0, T, N_steps)`, the step-`i` propagator
applied between the recorded rows `i` and `i+1` of the state-vector series
is built from the Hamiltonian sampled at the left endpoint `t[i]`
(second conjunct: `t[i] = i·T/(N-1)`) with time step
`dt = t[i+1] - t[i]` (first conjunct), for every `i` with `i+1 < N_steps`. -/
theorem c9_left_endpoint_stepping {n : ℕ} [NeZero n] (z : Zheevd n) (e : Eigh n)
    (Hslow : ℝ → Mat n) (approx : List (Vec n)) (T : ℝ) (N : ℕ) (i : ℕ)
    (hi : i + 1 < N) :
    ((time_evolve z e Hslow approx (linspaceList T N)).psis_t)[i+1]? =
      (((time_evolve z e Hslow approx (linspaceList T N)).psis_t)[i]?).map
        (List.map (Matrix.mulVec (propagatorSingle
          (solveStep z e (Hslow ((linspaceList T N).getD i 0)))
          ((linspaceList T N).getD (i+1) 0 - (linspaceList T N).getD i 0)))) ∧
    (linspaceList T N).getD i 0 = (i : ℝ) * (T / ((N : ℝ) - 1)) ∧
    (linspaceList T N).getD (i+1) 0 = ((i : ℝ) + 1) * (T / ((N : ℝ) - 1)) := by
  have h2 := linspaceList_getD T N i (by omega)
  have h3 := linspaceList_getD T N (i + 1) hi
  refine ⟨?_, h2, by rw [h3]; push_cast; ring⟩
  rcases hl : linspaceList T N with _ | ⟨t0, rest⟩
  · exfalso
    have hlen := linspaceList_length T N
    rw [hl] at hlen
    simp at hlen
    omega
  · have hlen : i + 1 < (t0 :: rest).length := by
      have := linspaceList_length T N
      rw [hl] at this
      rw [this]
      exact hi
    rw [time_evolve_psis_t_cons]
    exact evolveLoop_timeline (solveStep z e) Hslow _ (t0 :: rest) _ _ i hlen

/-- Witness for `c9_left_endpoint_stepping` on a two-sample grid. -/
theorem c9_left_endpoint_stepping_witness :
    (0 + 1 < 2) ∧
    (((time_evolve (zTriv 1) (eTriv 1) (fun _ => 0) [] (linspaceList 1 2)).psis_t)[0+1]? =
      (((time_evolve (zTriv 1) (eTriv 1) (fun _ => 0) [] (linspaceList 1 2)).psis_t)[0]?).map
        (List.map (Matrix.mulVec (propagatorSingle
          (solveStep (zTriv 1) (eTriv 1) ((fun _ => (0 : Mat 1)) ((linspaceList 1 2).getD 0 0)))
          ((linspaceList 1 2).getD (0+1) 0 - (linspaceList 1 2).getD 0 0))))) :=
  ⟨by decide,
    (c9_left_endpoint_stepping (zTriv 1) (eTriv 1) (fun _ => 0) [] 1 2 0
      (by decide)).1⟩

/-- C5. Under the spec §4.1 solver contract (exact unitary diagonalization
with ascending eigenvalues on Hermitian inputs, and the canonical output
`(d, I, 0)` on a real ascending diagonal matrix) and for a Hermitian slow
Hamiltonian, `_time_evolve_mu` invoked with the identically-zero
oscillating-coupling function and the all-zero shift matrix `D_mu` records,
at every time step, the same state vectors, energies and probabilities as
`_time_evolve` on the same grid and initial states. -/
theorem c5_zero_coupling_reproduces_single {n : ℕ} [NeZero n]
    (z : Zheevd n) (e : Eigh n) (Hslow : ℝ → Mat n) (approx : List (Vec n))
    (ts : List ℝ)
    (hz : ExactAscSolver fun H => ((z H).1, (z H).2.1))
    (he : ExactAscSolver e)
    (hdiag : ∀ d : Fin n → ℝ, Monotone d →
      z (Matrix.diagonal fun i => (d i : ℂ)) = (d, 1, 0))
    (hherm : ∀ t, (Hslow t).IsHermitian) :
    (time_evolve_mu z e Hslow (fun _ => 0) 0 approx ts).psis_t =
      (time_evolve z e Hslow approx ts).psis_t ∧
    (time_evolve_mu z e Hslow (fun _ => 0) 0 approx ts).energies =
      (time_evolve z e Hslow approx ts).energies ∧
    (time_evolve_mu z e Hslow (fun _ => 0) 0 approx ts).probabilities =
      (time_evolve z e Hslow approx ts).probabilities := by
  cases ts with
  | nil => exact ⟨rfl, rfl, rfl⟩
  | cons t0 rest =>
    have hmono0 : Monotone (e (Hslow t0)).1 := (he (Hslow t0) (hherm t0)).1
    have hsort0 : Tuple.sort (e (Hslow t0)).1 = Equiv.refl _ :=
      Tuple.sort_eq_refl_iff_monotone.mpr hmono0
    have hloop := evolveMuLoop_zero_eq (solveStep z e)
      (solveStep_exact z e hz he) (solveStep_diag z e hdiag) Hslow hherm
      (e (Hslow t0)).2 (t0 :: rest)
      (init_state_vecs e (Hslow t0) approx) (e (Hslow t0)).2
    simp only [time_evolve, time_evolve_mu]
    rw [hsort0]
    simp only [Equiv.coe_refl, Matrix.submatrix_id_id]
    rw [hloop]
    refine ⟨?_, ?_, ?_⟩ <;> simp [List.map_map, Function.comp_def]

/-- An exact 1×1 eigensolver in `zheevd` output format: the eigenvalue of a
1×1 Hermitian matrix is its single (real) entry, the eigenvector matrix is
the identity, and the status is success. -/
noncomputable def zExact1 : Zheevd 1 := fun H => (fun _ => (H 0 0).re, 1, 0)

/-- An exact 1×1 eigensolver in `np.linalg.eigh` output format. -/
noncomputable def eExact1 : Eigh 1 := fun H => (fun _ => (H 0 0).re, 1)

lemma hermitian_one_dim_diagonal (H : Mat 1) (hH : H.IsHermitian) :
    H = Matrix.diagonal fun _ => ((H 0 0).re : ℂ) := by
  have him : (H 0 0).im = 0 := by
    have hc := congrFun (congrFun hH.symm 0) 0
    rw [Matrix.conjTranspose_apply] at hc
    exact Complex.conj_eq_iff_im.mp hc.symm
  ext i j
  have hi : i = 0 := Subsingleton.elim i 0
  have hj : j = 0 := Subsingleton.elim j 0
  subst hi; subst hj
  rw [Matrix.diagonal_apply_eq]
  exact Complex.ext (by simp) (by simp [him])

lemma eExact1_contract : ExactAscSolver eExact1 := by
  intro H hH
  refine ⟨monotone_const, by simp [eExact1], ?_⟩
  simp only [eExact1, Matrix.mul_one, Matrix.one_mul]
  exact hermitian_one_dim_diagonal H hH

lemma zExact1_contract : ExactAscSolver fun H => ((zExact1 H).1, (zExact1 H).2.1) := by
  intro H hH
  refine ⟨monotone_const, by simp [zExact1], ?_⟩
  simp only [zExact1, Matrix.mul_one, Matrix.one_mul]
  exact hermitian_one_dim_diagonal H hH

lemma zExact1_diag : ∀ d : Fin 1 → ℝ, Monotone d →
    zExact1 (Matrix.diagonal fun i => (d i : ℂ)) = (d, 1, 0) := by
  intro d _
  have h1 : (fun _ : Fin 1 => ((Matrix.diagonal fun i => ((d i : ℝ) : ℂ)) 0 0).re) = d := by
    funext x
    rw [Matrix.diagonal_apply_eq, Complex.ofReal_re]
    exact congrArg d (Subsingleton.elim (0 : Fin 1) x)
  simp only [zExact1]
  rw [h1]

/-- Witness for `c5_zero_coupling_reproduces_single`: the exact 1×1 solvers
satisfy the contract, the zero Hamiltonian is Hermitian, and the two modes
agree on a concrete two-sample run. -/
theorem c5_zero_coupling_reproduces_single_witness :
    ExactAscSolver (fun H => ((zExact1 H).1, (zExact1 H).2.1)) ∧
    ExactAscSolver eExact1 ∧
    (∀ d : Fin 1 → ℝ, Monotone d →
      zExact1 (Matrix.diagonal fun i => (d i : ℂ)) = (d, 1, 0)) ∧
    (∀ t : ℝ, ((fun _ : ℝ => (0 : Mat 1)) t).IsHermitian) ∧
    (time_evolve_mu zExact1 eExact1 (fun _ => 0) (fun _ => 0) 0
        [fun _ => 1] [0, 1]).psis_t =
      (time_evolve zExact1 eExact1 (fun _ => 0) [fun _ => 1] [0, 1]).psis_t := by
  have hherm : ∀ t : ℝ, ((fun _ : ℝ => (0 : Mat 1)) t).IsHermitian :=
    fun _ => Matrix.isHermitian_zero
  exact ⟨zExact1_contract, eExact1_contract, zExact1_diag, hherm,
    (c5_zero_coupling_reproduces_single zExact1 eExact1 (fun _ => 0)
      [fun _ => 1] [0, 1] zExact1_contract eExact1_contract zExact1_diag
      hherm).1⟩

/-- Witness for `c2_run_fails_before_loop` on a concrete two-level simulator
with one microwave field. -/
theorem c2_run_fails_before_loop_witness :
    Simulator.run (zTriv 2) (eTriv 2)
      ⟨1, ![0, 1], fun _ => 0, [], some [⟨0, 1, 1, none, none⟩]⟩ 7 =
      Except.error (PyErr.attributeError "MicrowaveField" "get_H_t_func") :=
  c2_run_fails_before_loop (zTriv 2) (eTriv 2) 1 ![0, 1] (fun _ => 0) []
    ⟨0, 1, 1, none, none⟩ [] 7

/-- Witness for `c3_generate_D_discards_shift` on a concrete two-level
field: calling `generate_D` leaves `D` at the `None` set by `__init__`,
and the discarded local matrix carries `-2π` at the `Je` diagonal entry. -/
theorem c3_generate_D_discards_shift_witness :
    ((⟨0, 1, 1, none, none⟩ : MicrowaveField 2).generate_D ![0, 1]).D = none ∧
    generate_D_localD (![0, 1] : Fin 2 → ℤ) 1 1 1 1 = -(2 * Real.pi * 1) := by
  constructor
  · exact ((c3_generate_D_discards_shift (n := 2)).1 ⟨0, 1, 1, none, none⟩
      ![0, 1]).trans rfl
  · rw [(c3_generate_D_discards_shift (n := 2)).2.2.1 ![0, 1] 1 1 1 1]
    rw [if_pos ⟨rfl, rfl⟩]
